import Mathlib

set_option maxRecDepth 4000

/-!
Verification of the KangarooTwelve tree-hashing core (`src/k12/src/lib.rs`).

The underlying sponge primitive (`sha3::TurboShake128`) lives outside the
`k12` crate; it is modelled abstractly as a deterministic byte stream per
(domain byte, input), squeezed by taking a prefix.  Bytes are modelled as
natural numbers; `Vec<u8>` becomes `List Nat`.
-/

/-- Modelled from the spec: the external sponge primitive
(`sha3::TurboShake128`, constructed via `TurboShake128Core::new(domain_byte)`)
is missing from the sources; the spec treats it as a black box that, given a
domain-separation byte and an input byte sequence, deterministically produces
an output stream of arbitrary length.  A `Sponge` gives the byte at each
stream position for a given (domain byte, input). -/
def Sponge : Type := Nat → List Nat → Nat → Nat

/-- Modelled from the spec: squeezing `outLen` bytes from the sponge stream
(`finalize_xof_into` on a buffer of length `outLen`). -/
def squeeze (sp : Sponge) (domainByte : Nat) (input : List Nat) (outLen : Nat) :
    List Nat :=
  (List.range outLen).map (sp domainByte input)

/-- The `KangarooTwelve` struct: message buffer plus customization string. -/
structure KangarooTwelve where
  buffer : List Nat
  customization : List Nat
  deriving DecidableEq

/-- `KangarooTwelve::new` (via `Default`): empty buffer, empty customization. -/
def KangarooTwelve.new : KangarooTwelve := ⟨[], []⟩

/-- `KangarooTwelve::new_with_customization`. -/
def KangarooTwelve.new_with_customization (c : List Nat) : KangarooTwelve :=
  ⟨[], c⟩

/-- `Update::update`: `self.buffer.extend_from_slice(bytes)`. -/
def KangarooTwelve.update (s : KangarooTwelve) (bytes : List Nat) :
    KangarooTwelve :=
  { s with buffer := s.buffer ++ bytes }

/-- The `Reader` struct produced by finalization. -/
structure Reader where
  buffer : List Nat
  customization : List Nat
  finished : Bool
  deriving DecidableEq

/-- `ExtendableOutput::finalize_xof`: moves both buffers into the `Reader`. -/
def KangarooTwelve.finalize_xof (s : KangarooTwelve) : Reader :=
  ⟨s.buffer, s.customization, false⟩

/-- `ExtendableOutputReset::finalize_xof_reset`: swaps both `buffer` and
`customization` with freshly-created empty vectors, moving the originals into
the returned `Reader`.  Returns (reader, state left behind in `self`). -/
def KangarooTwelve.finalize_xof_reset (s : KangarooTwelve) :
    Reader × KangarooTwelve :=
  (⟨s.buffer, s.customization, false⟩, ⟨[], []⟩)

/-- `Reset::reset`: `self.buffer.clear()`; the customization is untouched. -/
def KangarooTwelve.reset (s : KangarooTwelve) : KangarooTwelve :=
  { s with buffer := [] }

/-- The little-endian byte digits collected by `right_encode`'s
`while x > 0 { slice.push((x % 256) as u8); x /= 256; }` loop. -/
def leBytes : Nat → List Nat
  | 0 => []
  | x + 1 => ((x + 1) % 256) :: leBytes ((x + 1) / 256)
decreasing_by exact Nat.div_lt_self (Nat.succ_pos x) (by norm_num)

/-- `right_encode`: big-endian digits followed by `slice.push(len as u8)`
(the `as u8` cast is a reduction modulo 256). -/
def right_encode (x : Nat) : List Nat :=
  let s := (leBytes x).reverse
  s ++ [s.length % 256]

/-- The string `S` built inside `Reader::read`:
`buffer || customization || right_encode(customization.len())`. -/
def finalSlice (buffer customization : List Nat) : List Nat :=
  buffer ++ customization ++ right_encode customization.length

/-- The chunk count `n = (slice.len() + b - 1) / b` with `b = 8192`. -/
def numChunks (S : List Nat) : Nat := (S.length + 8192 - 1) / 8192

/-- The chunk list `Si`: for `i in 0..n`,
`&slice[i*b .. min((i+1)*b, slice.len())]`. -/
def readChunks (S : List Nat) : List (List Nat) :=
  (List.range (numChunks S)).map fun i =>
    (S.drop (i * 8192)).take (min ((i + 1) * 8192) S.length - i * 8192)

/-- The body of `XofReader::read` (everything after the `finished` assertion):
build `S`, chunk it, and either take the single-chunk fast path (domain byte
`0x07`) or the tree path (leaf domain byte `0x0B`, 32-byte chaining values,
final node hashed with domain byte `0x06`). -/
def Reader.readBytes (sp : Sponge) (r : Reader) (outLen : Nat) : List Nat :=
  let slice := finalSlice r.buffer r.customization
  let n := numChunks slice
  let slices := readChunks slice
  if n = 1 then
    squeeze sp 0x07 (slices.getD 0 []) outLen
  else
    let intermediate :=
      (List.range (n - 1)).map fun i => squeeze sp 0x0B (slices.getD (i + 1) []) 32
    let node_star :=
      slices.getD 0 [] ++ [3, 0, 0, 0, 0, 0, 0, 0] ++ intermediate.flatten
        ++ right_encode (n - 1) ++ [0xFF, 0xFF]
    squeeze sp 0x06 node_star outLen

/-- `XofReader::read`: asserts `!self.finished` (the `ReadAfterFinish` panic is
modelled as `none`), otherwise produces the output bytes and the post-state
with `finished := true`. -/
def Reader.read (sp : Sponge) (r : Reader) (outLen : Nat) :
    Option (List Nat × Reader) :=
  if r.finished then none
  else some (r.readBytes sp outLen, { r with finished := true })

/-- Spec-worded partition of `S` into chunks of 8192 bytes, the last possibly
shorter, at least one chunk always existing. -/
def specChunks (S : List Nat) : List (List Nat) :=
  if S.length ≤ 8192 then [S]
  else S.take 8192 :: specChunks (S.drop 8192)
termination_by S.length
decreasing_by
  simp only [List.length_drop]
  omega

/-- Spec-worded chaining value of a trailing chunk: sponge with
domain-separation byte `0x0B`, squeezed to 32 bytes. -/
def chainingValue (sp : Sponge) (chunk : List Nat) : List Nat :=
  squeeze sp 0x0B chunk 32

/-- Spec-worded final node: chunk 0, the 8-byte pre-marker, the chaining
values of the trailing chunks in chunk order, `right_encode(n-1)`, and the
2-byte post-marker. -/
def specFinalNode (sp : Sponge) (S : List Nat) : List Nat :=
  let cs := specChunks S
  cs.headD [] ++ [0x03, 0, 0, 0, 0, 0, 0, 0]
    ++ (cs.tail.map (chainingValue sp)).flatten
    ++ right_encode (cs.length - 1) ++ [0xFF, 0xFF]

/-- A sponge that reveals the domain byte it was constructed with, used for
counterexamples and witnesses. -/
def spDom : Sponge := fun d _ _ => d

/-! ### Helper lemmas about chunking -/

lemma drop_take_min {α : Type} (l : List α) (a n : Nat) :
    (l.drop a).take (min (a + n) l.length - a) = (l.drop a).take n := by
  rcases le_total (a + n) l.length with h | h
  · rw [min_eq_left h, Nat.add_sub_cancel_left]
  · have h1 : (l.drop a).length ≤ l.length - a := by
      simp only [List.length_drop]; omega
    have h2 : (l.drop a).length ≤ n := by
      simp only [List.length_drop]; omega
    rw [min_eq_right h, List.take_of_length_le h1, List.take_of_length_le h2]

lemma readChunks_eq (S : List Nat) :
    readChunks S
      = (List.range (numChunks S)).map fun i => (S.drop (i * 8192)).take 8192 := by
  unfold readChunks
  refine List.map_congr_left fun i _ => ?_
  have h : (i + 1) * 8192 = i * 8192 + 8192 := by ring
  rw [h]
  exact drop_take_min S (i * 8192) 8192

lemma numChunks_eq_one {S : List Nat} (h1 : S ≠ []) (h2 : S.length ≤ 8192) :
    numChunks S = 1 := by
  have := List.length_pos.mpr h1
  unfold numChunks; omega

lemma numChunks_drop {S : List Nat} (h : 8192 < S.length) :
    numChunks S = numChunks (S.drop 8192) + 1 := by
  unfold numChunks
  simp only [List.length_drop]
  omega

lemma numChunks_pos {S : List Nat} (h : S ≠ []) : 1 ≤ numChunks S := by
  have := List.length_pos.mpr h
  unfold numChunks; omega

lemma map_range_succ {β : Type} (f : Nat → β) (n : Nat) :
    (List.range (n + 1)).map f = f 0 :: (List.range n).map fun i => f (i + 1) := by
  rw [List.range_succ_eq_map, List.map_cons, List.map_map]
  rfl

lemma readChunks_eq_specChunks (S : List Nat) :
    S ≠ [] → readChunks S = specChunks S := by
  induction S using specChunks.induct with
  | case1 S hle =>
    intro hne
    rw [specChunks, if_pos hle, readChunks_eq, numChunks_eq_one hne hle]
    have h0 : List.range 1 = [0] := rfl
    rw [h0, List.map_cons, List.map_nil]
    simp [List.take_of_length_le hle]
  | case2 S hgt ih =>
    intro _
    have hlen : 8192 < S.length := by omega
    have hne' : S.drop 8192 ≠ [] := by
      rw [← List.length_pos]
      simp only [List.length_drop]; omega
    rw [specChunks, if_neg hgt, readChunks_eq, numChunks_drop hlen]
    simp only [map_range_succ]
    rw [← ih hne', readChunks_eq, Nat.zero_mul, List.drop_zero]
    have htail :
        (List.range (numChunks (S.drop 8192))).map
            (fun i => (S.drop ((i + 1) * 8192)).take 8192)
          = (List.range (numChunks (S.drop 8192))).map
              fun i => ((S.drop 8192).drop (i * 8192)).take 8192 := by
      refine List.map_congr_left fun i _ => ?_
      have h1 : (i + 1) * 8192 = i * 8192 + 8192 := by ring
      rw [h1, List.drop_drop, Nat.add_comm 8192 (i * 8192)]
    rw [htail]

lemma specChunks_flatten (S : List Nat) : (specChunks S).flatten = S := by
  induction S using specChunks.induct with
  | case1 S hle => rw [specChunks, if_pos hle]; simp
  | case2 S hgt ih =>
    rw [specChunks, if_neg hgt]
    simp [ih]

lemma specChunks_length_le (S : List Nat) :
    ∀ ch ∈ specChunks S, ch.length ≤ 8192 := by
  induction S using specChunks.induct with
  | case1 S hle =>
    rw [specChunks, if_pos hle]
    intro ch hc
    rw [List.mem_singleton.mp hc]
    exact hle
  | case2 S hgt ih =>
    rw [specChunks, if_neg hgt]
    intro ch hc
    rcases List.mem_cons.mp hc with h | h
    · subst h; simp
    · exact ih ch h

lemma specChunks_getD_length (S : List Nat) :
    ∀ i, i + 1 < (specChunks S).length → ((specChunks S).getD i []).length = 8192 := by
  induction S using specChunks.induct with
  | case1 S hle =>
    rw [specChunks, if_pos hle]
    intro i hi
    simp at hi
  | case2 S hgt ih =>
    rw [specChunks, if_neg hgt]
    intro i hi
    cases i with
    | zero =>
      simp only [List.getD_cons_zero, List.length_take]
      omega
    | succ j =>
      simp only [List.getD_cons_succ]
      simp only [List.length_cons] at hi
      exact ih j (by omega)

lemma specChunks_ne_nil (S : List Nat) : specChunks S ≠ [] := by
  rw [specChunks]; split <;> simp

lemma specChunks_length {S : List Nat} (h : S ≠ []) :
    (specChunks S).length = numChunks S := by
  rw [← readChunks_eq_specChunks S h, readChunks_eq]
  simp

lemma right_encode_ne_nil (x : Nat) : right_encode x ≠ [] := by
  simp [right_encode]

lemma finalSlice_ne_nil (b c : List Nat) : finalSlice b c ≠ [] := by
  simp [finalSlice, right_encode]

/-! ### Helper lemmas about the two read paths -/

lemma getD_zero_headD {α : Type} (l : List α) (d : α) : l.getD 0 d = l.headD d := by
  cases l <;> simp

lemma map_getD_range {α β : Type} (f : α → β) (l : List α) (d : α) :
    (List.range l.length).map (fun i => f (l.getD i d)) = l.map f := by
  induction l with
  | nil => simp
  | cons a t ih =>
    rw [List.length_cons]
    simp only [map_range_succ, List.getD_cons_zero, List.getD_cons_succ]
    rw [ih, List.map_cons]

lemma map_getD_succ_range {α β : Type} (f : α → β) (l : List α) (d : α) :
    (List.range (l.length - 1)).map (fun i => f (l.getD (i + 1) d)) = l.tail.map f := by
  cases l with
  | nil => simp
  | cons a t =>
    simp only [List.length_cons, Nat.add_sub_cancel, List.getD_cons_succ, List.tail_cons]
    exact map_getD_range f t d

lemma map_cv_tail (sp : Sponge) (l : List (List Nat)) :
    (List.range (l.length - 1)).map
        (fun i => squeeze sp 0x0B (l.getD (i + 1) []) 32)
      = l.tail.map (chainingValue sp) :=
  map_getD_succ_range (chainingValue sp) l []

lemma readBytes_single (sp : Sponge) (b c : List Nat) (outLen : Nat)
    (h : numChunks (finalSlice b c) = 1) :
    Reader.readBytes sp ⟨b, c, false⟩ outLen
      = squeeze sp 0x07 (finalSlice b c) outLen := by
  have hne := finalSlice_ne_nil b c
  have hle : (finalSlice b c).length ≤ 8192 := by
    have := h
    unfold numChunks at this
    omega
  simp only [Reader.readBytes]
  rw [if_pos h, readChunks_eq_specChunks _ hne, specChunks, if_pos hle]
  simp

lemma readBytes_multi (sp : Sponge) (b c : List Nat) (outLen : Nat)
    (h : 2 ≤ numChunks (finalSlice b c)) :
    Reader.readBytes sp ⟨b, c, false⟩ outLen
      = squeeze sp 0x06 (specFinalNode sp (finalSlice b c)) outLen := by
  have hne := finalSlice_ne_nil b c
  have hn1 : ¬ numChunks (finalSlice b c) = 1 := by omega
  simp only [Reader.readBytes, specFinalNode]
  rw [if_neg hn1, readChunks_eq_specChunks _ hne, getD_zero_headD,
    ← specChunks_length hne, map_cv_tail]

lemma readBytes_length (sp : Sponge) (r : Reader) (outLen : Nat) :
    (Reader.readBytes sp r outLen).length = outLen := by
  simp only [Reader.readBytes]
  split <;> simp [squeeze]

lemma squeeze_take (sp : Sponge) (d : Nat) (input : List Nat) {n1 n2 : Nat}
    (h : n1 ≤ n2) :
    (squeeze sp d input n2).take n1 = squeeze sp d input n1 := by
  unfold squeeze
  rw [← List.map_take, List.take_range, min_eq_left h]

/-! ### Helper lemmas about `right_encode` -/

lemma leBytes_eq_digits (x : Nat) : leBytes x = Nat.digits 256 x := by
  induction x using leBytes.induct with
  | case1 => simp [leBytes]
  | case2 x ih =>
    rw [leBytes, ih, ← Nat.digits_def' (by norm_num : (1 : ℕ) < 256) (Nat.succ_pos x)]

lemma right_encode_eq (x : Nat) :
    right_encode x
      = (Nat.digits 256 x).reverse ++ [(Nat.digits 256 x).length % 256] := by
  simp [right_encode, leBytes_eq_digits]

lemma digits_len_le_of_lt {x : Nat} (h : x < 2 ^ 64) :
    (Nat.digits 256 x).length ≤ 8 := by
  rcases Nat.eq_zero_or_pos x with rfl | hx
  · simp
  · by_contra hlen
    push_neg at hlen
    have h1 : (256 : ℕ) ^ (Nat.digits 256 x).length ≤ 256 * x :=
      Nat.base_pow_length_digits_le 256 x (by norm_num) hx.ne'
    have h2 : (256 : ℕ) ^ 9 ≤ 256 ^ (Nat.digits 256 x).length :=
      Nat.pow_le_pow_right (by norm_num) hlen
    have h3 : 256 * x < 256 * 2 ^ 64 := by omega
    have h4 : (256 : ℕ) ^ 9 < 256 * 2 ^ 64 := lt_of_le_of_lt (le_trans h2 h1) h3
    norm_num at h4

lemma right_encode_zero : right_encode 0 = [0x00] := by
  rw [right_encode_eq]; simp

lemma right_encode_one : right_encode 1 = [0x01, 0x01] := by
  rw [right_encode_eq]; norm_num

lemma right_encode_255 : right_encode 255 = [0xFF, 0x01] := by
  rw [right_encode_eq]; norm_num

lemma right_encode_256 : right_encode 256 = [0x01, 0x00, 0x02] := by
  rw [right_encode_eq]; norm_num

lemma right_encode_65536 : right_encode 65536 = [0x01, 0x00, 0x00, 0x03] := by
  rw [right_encode_eq]; norm_num

lemma squeeze_spDom_one (d : Nat) (input : List Nat) :
    squeeze spDom d input 1 = [d] := rfl

/-! ### Claim theorems -/

/-- Claim C1: when the finalized string `S` partitions into `n ≥ 2` chunks,
`read`'s output equals the sponge with domain-separation byte `0x06` applied
to the final node — chunk 0's bytes, the fixed 8-byte pre-marker
`{0x03,0,…,0}`, the 32-byte chaining values of the trailing chunks in chunk
order (each the `0x0B`-sponge of that chunk squeezed to 32 bytes),
`right_encode(n-1)`, and the 2-byte post-marker `{0xFF,0xFF}` — squeezed to
the requested output length. -/
theorem claim_C1 (sp : Sponge) (b c : List Nat) (outLen : Nat)
    (h : 2 ≤ numChunks (finalSlice b c)) :
    Reader.readBytes sp ⟨b, c, false⟩ outLen
      = squeeze sp 0x06 (specFinalNode sp (finalSlice b c)) outLen :=
  readBytes_multi sp b c outLen h

/-- Claim C1 witness: a 8193-byte message with empty customization yields two
chunks and the multi-chunk output shape. -/
theorem claim_C1_witness :
    2 ≤ numChunks (finalSlice (List.replicate 8193 0) [])
    ∧ Reader.readBytes spDom ⟨List.replicate 8193 0, [], false⟩ 1
        = squeeze spDom 0x06
            (specFinalNode spDom (finalSlice (List.replicate 8193 0) [])) 1 := by
  have h : 2 ≤ numChunks (finalSlice (List.replicate 8193 0) []) := by
    have hl : (finalSlice (List.replicate 8193 0) []).length = 8194 := by
      simp only [finalSlice, List.length_append, List.length_replicate,
        List.length_nil, right_encode_zero, List.length_cons]
    unfold numChunks
    rw [hl]
  exact ⟨h, claim_C1 spDom (List.replicate 8193 0) [] 1 h⟩

/-- Claim C2: the byte string that `read` chunks and hashes is exactly
`S = M ‖ C ‖ right_encode(len C)`; the chunk list computed by the code is the
spec partition into consecutive 8192-byte chunks (last possibly shorter)
whose concatenation restores `S`; and absorption (`update`) never touches the
customization, which is appended only at finalization. -/
theorem claim_C2 (b c : List Nat) :
    finalSlice b c = b ++ c ++ right_encode c.length
    ∧ readChunks (finalSlice b c) = specChunks (finalSlice b c)
    ∧ (readChunks (finalSlice b c)).flatten = finalSlice b c
    ∧ (∀ i, i + 1 < (readChunks (finalSlice b c)).length →
        ((readChunks (finalSlice b c)).getD i []).length = 8192)
    ∧ (∀ ch ∈ readChunks (finalSlice b c), ch.length ≤ 8192)
    ∧ ∀ (s : KangarooTwelve) (bytes : List Nat),
        (s.update bytes).customization = s.customization := by
  have hne := finalSlice_ne_nil b c
  have he := readChunks_eq_specChunks _ hne
  refine ⟨rfl, he, ?_, ?_, ?_, fun s bytes => rfl⟩
  · rw [he, specChunks_flatten]
  · rw [he]; exact specChunks_getD_length _
  · rw [he]; exact specChunks_length_le _

/-- Claim C3: when the finalized string yields exactly one chunk, `read`'s
output is the sponge with domain-separation byte `0x07` applied directly to
that single chunk (which is all of `S`), squeezed to the requested length,
with no tree structure. -/
theorem claim_C3 (sp : Sponge) (b c : List Nat) (outLen : Nat)
    (h : numChunks (finalSlice b c) = 1) :
    Reader.readBytes sp ⟨b, c, false⟩ outLen
      = squeeze sp 0x07 (finalSlice b c) outLen :=
  readBytes_single sp b c outLen h

/-- Claim C3 witness: the empty message with empty customization finalizes to
the one-byte string `right_encode(0)`, a single chunk. -/
theorem claim_C3_witness :
    numChunks (finalSlice [] []) = 1
    ∧ Reader.readBytes spDom ⟨[], [], false⟩ 2
        = squeeze spDom 0x07 (finalSlice [] []) 2 := by
  have h : numChunks (finalSlice [] []) = 1 := by
    have hl : (finalSlice [] []).length = 1 := by
      simp only [finalSlice, List.length_append, List.length_nil,
        right_encode_zero, List.length_cons]
    unfold numChunks
    rw [hl]
  exact ⟨h, claim_C3 spDom [] [] 2 h⟩

/-- Claim C4: `right_encode x` is the big-endian base-256 digit string of `x`
followed by one trailer byte equal to the digit count (for every `x` in the
`usize` range, where the `as u8` cast of the count is the identity), and it
matches the five published examples. -/
theorem claim_C4 (x : Nat) (h : x < 2 ^ 64) :
    right_encode x = (Nat.digits 256 x).reverse ++ [(Nat.digits 256 x).length]
    ∧ right_encode 0 = [0x00]
    ∧ right_encode 1 = [0x01, 0x01]
    ∧ right_encode 255 = [0xFF, 0x01]
    ∧ right_encode 256 = [0x01, 0x00, 0x02]
    ∧ right_encode 65536 = [0x01, 0x00, 0x00, 0x03] := by
  refine ⟨?_, right_encode_zero, right_encode_one, right_encode_255,
    right_encode_256, right_encode_65536⟩
  rw [right_encode_eq]
  have hlen := digits_len_le_of_lt h
  have hmod : (Nat.digits 256 x).length % 256 = (Nat.digits 256 x).length :=
    Nat.mod_eq_of_lt (by omega)
  rw [hmod]

/-- Claim C4 witness: instantiation at `x = 65536`. -/
theorem claim_C4_witness :
    65536 < 2 ^ 64
    ∧ (right_encode 65536
          = (Nat.digits 256 65536).reverse ++ [(Nat.digits 256 65536).length]
      ∧ right_encode 0 = [0x00]
      ∧ right_encode 1 = [0x01, 0x01]
      ∧ right_encode 255 = [0xFF, 0x01]
      ∧ right_encode 256 = [0x01, 0x00, 0x02]
      ∧ right_encode 65536 = [0x01, 0x00, 0x00, 0x03]) :=
  ⟨by norm_num, claim_C4 65536 (by norm_num)⟩

/-- Claim C5 counterexample: an 8191-byte message (shorter than 8192 bytes)
with a 1-byte customization finalizes to 8194 bytes, so the code takes the
multi-chunk path (two chunks, output domain byte `0x06`), not the
single-chunk fast path with domain byte `0x07` — the claim as stated fails. -/
theorem claim_C5_counterexample :
    (List.replicate 8191 0).length < 8192
    ∧ numChunks (finalSlice (List.replicate 8191 0) [0]) = 2
    ∧ Reader.readBytes spDom ⟨List.replicate 8191 0, [0], false⟩ 1
        ≠ squeeze spDom 0x07 (finalSlice (List.replicate 8191 0) [0]) 1 := by
  have hl : (finalSlice (List.replicate 8191 0) [0]).length = 8194 := by
    simp only [finalSlice, List.length_append, List.length_replicate,
      List.length_cons, List.length_nil, Nat.zero_add, right_encode_one]
  have hn : numChunks (finalSlice (List.replicate 8191 0) [0]) = 2 := by
    unfold numChunks
    rw [hl]
  refine ⟨by rw [List.length_replicate]; omega, hn, ?_⟩
  have hm := readBytes_multi spDom (List.replicate 8191 0) [0] 1 (by omega)
  rw [hm, squeeze_spDom_one, squeeze_spDom_one]
  decide

/-- Claim C5 (amended): for every message shorter than 8192 bytes with an
EMPTY customization (the counterexample shows a non-empty customization can
push the finalized string past one chunk), the single-chunk fast path with
domain byte `0x07` is taken. -/
theorem claim_C5_amended (sp : Sponge) (b : List Nat) (outLen : Nat)
    (h : b.length < 8192) :
    numChunks (finalSlice b []) = 1
    ∧ Reader.readBytes sp ⟨b, [], false⟩ outLen
        = squeeze sp 0x07 (finalSlice b []) outLen := by
  have hn : numChunks (finalSlice b []) = 1 := by
    have hl : (finalSlice b []).length = b.length + 1 := by
      simp only [finalSlice, List.length_append, List.length_nil,
        right_encode_zero, List.length_cons]
    unfold numChunks
    rw [hl]
    omega
  exact ⟨hn, readBytes_single sp b [] outLen hn⟩

/-- Claim C5 witness: instantiation of the amended claim at the empty
message. -/
theorem claim_C5_witness :
    ([] : List Nat).length < 8192
    ∧ (numChunks (finalSlice [] []) = 1
      ∧ Reader.readBytes spDom ⟨[], [], false⟩ 3
          = squeeze spDom 0x07 (finalSlice [] []) 3) :=
  ⟨by decide, claim_C5_amended spDom [] 3 (by decide)⟩

/-- Claim C6: for every message and customization the finalized string is
non-empty — it always ends in the never-empty `right_encode(len C)` — so the
chunk list always has at least one entry and the chunk-0 accesses are in
bounds. -/
theorem claim_C6 (b c : List Nat) :
    right_encode c.length ≠ []
    ∧ finalSlice b c ≠ []
    ∧ 0 < (readChunks (finalSlice b c)).length := by
  refine ⟨right_encode_ne_nil _, finalSlice_ne_nil b c, ?_⟩
  rw [readChunks_eq]
  simp only [List.length_map, List.length_range]
  exact numChunks_pos (finalSlice_ne_nil b c)

/-- Claim C7: on a freshly finalized `Reader` the first `read` succeeds for
every output length (producing exactly that many bytes, so zero bytes for
length 0), and any further `read` on the resulting instance hits the
`ReadAfterFinish` assertion (the panic, modelled as `none`) — a fatal
condition, not a data-dependent error. -/
theorem claim_C7 (sp : Sponge) (b c : List Nat) (n1 n2 : Nat) :
    ∃ out r2,
      Reader.read sp ⟨b, c, false⟩ n1 = some (out, r2)
      ∧ out.length = n1
      ∧ r2.finished = true
      ∧ Reader.read sp r2 n2 = none :=
  ⟨Reader.readBytes sp ⟨b, c, false⟩ n1, ⟨b, c, true⟩, rfl,
    readBytes_length sp _ n1, rfl, rfl⟩

/-- Claim C8: the output stream has the prefix property — squeezing `n2 > n1`
bytes and, from an independent finalization of the same message and
customization, squeezing `n1` bytes agree on the first `n1` bytes. -/
theorem claim_C8 (sp : Sponge) (b c : List Nat) (n1 n2 : Nat) (h : n1 < n2) :
    (Reader.readBytes sp ⟨b, c, false⟩ n2).take n1
      = Reader.readBytes sp ⟨b, c, false⟩ n1 := by
  by_cases hn : numChunks (finalSlice b c) = 1
  · simp only [Reader.readBytes, if_pos hn]
    exact squeeze_take sp _ _ h.le
  · simp only [Reader.readBytes, if_neg hn]
    exact squeeze_take sp _ _ h.le

/-- Claim C8 witness: instantiation at the empty message, lengths 0 < 1. -/
theorem claim_C8_witness :
    0 < 1
    ∧ (Reader.readBytes spDom ⟨[], [], false⟩ 1).take 0
        = Reader.readBytes spDom ⟨[], [], false⟩ 0 :=
  ⟨by decide, claim_C8 spDom [] [] 0 1 (by decide)⟩

/-- Claim C9 counterexample: `finalize_xof_reset` on an instance with message
`[2]` and customization `[1]` leaves the customization buffer empty (`[]`),
not unchanged (`[1]`): the customization moves into the returned `Reader`,
so the claim that the instance keeps its customization fails. -/
theorem claim_C9_counterexample :
    (KangarooTwelve.finalize_xof_reset ⟨[2], [1]⟩).2.customization = []
    ∧ (KangarooTwelve.finalize_xof_reset ⟨[2], [1]⟩).2.customization
        ≠ (⟨[2], [1]⟩ : KangarooTwelve).customization :=
  ⟨rfl, by decide⟩

/-- Claim C9 (amended): `finalize_xof_reset` moves BOTH the message buffer
and the customization into the returned `Reader` and leaves the instance with
an empty message buffer and an empty customization buffer, so subsequent
absorb/finalize cycles use the empty customization; the plain `reset`, by
contrast, clears only the message buffer and preserves the customization. -/
theorem claim_C9_amended (s : KangarooTwelve) :
    s.finalize_xof_reset = (⟨s.buffer, s.customization, false⟩, ⟨[], []⟩)
    ∧ s.reset.buffer = [] ∧ s.reset.customization = s.customization :=
  ⟨rfl, rfl, rfl⟩

/-- Claim C10: feeding an input split into consecutive pieces through
successive `update` calls leaves the absorber in the same state as one
`update` with the concatenation — hence the same final output — and `update`
only appends to the message buffer, never touching the customization. -/
theorem claim_C10 (s : KangarooTwelve) (pieces : List (List Nat))
    (p : List Nat) :
    List.foldl KangarooTwelve.update s pieces = s.update pieces.flatten
    ∧ (s.update p).buffer = s.buffer ++ p
    ∧ (s.update p).customization = s.customization
    ∧ ∀ (sp : Sponge) (n : Nat),
        Reader.read sp (List.foldl KangarooTwelve.update s pieces).finalize_xof n
          = Reader.read sp (s.update pieces.flatten).finalize_xof n := by
  have hfold : ∀ (t : KangarooTwelve),
      List.foldl KangarooTwelve.update t pieces = t.update pieces.flatten := by
    induction pieces with
    | nil => intro t; simp [KangarooTwelve.update]
    | cons q qs ih =>
      intro t
      rw [List.foldl_cons, ih, List.flatten_cons]
      simp [KangarooTwelve.update, List.append_assoc]
  exact ⟨hfold s, rfl, rfl, fun sp n => by rw [hfold s]⟩
